import Mathlib

/-!
Verification development for the `ket_operation_simpy` repository
(`src/states.py`): symbolic quantum pure/mixed states over an exact scalar
field, with density-matrix construction, projective measurement and partial
trace.

Modelling conventions.

* sympy matrices are dynamically shaped; we embed them as a structure `Mat`
  carrying `rows`, `cols` and a flat row-major `data` list, exactly as sympy
  stores a dense matrix.  Iterating a sympy matrix yields its entries in
  row-major order, which is `Mat.data`.
* sympy scalars are exact symbolic values.  On canonical exact scalars
  (rationals, Gaussian integers, elements of ℚ adjoined √2) sympy's
  `simplify` is the identity and `!= 0` is exact inequality with `0`, so the
  embedding instantiates the scalar type `K` with such fields and drops the
  (identity) `simplify` calls.  For the one claim whose content is the
  behaviour of `simplify` on *undecided* symbolic residuals, a dedicated
  scalar type `LinExpr` of rational linear combinations of free symbols is
  used; on that fragment sympy's `Add`/`Mul` normal forms make arithmetic
  exactly the arithmetic of `LinExpr`, and the structural `!= 0` test is
  `LinExpr` inequality with `0`.
* Python exceptions become the `Err` error type through `Except`:
  `ValueError` from the ensemble check is `Err.invalidEnsemble`
  (the spec's `InvalidEnsembleError`), the `RuntimeError` in `measure` is
  `Err.degenerate` (the spec's `DegenerateMeasurementError`), the
  `AttributeError` raised by calling `col_insert` on a scalar is
  `Err.attributeError`, `IndexError` from indexing an empty ensemble is
  `Err.indexError`, the column-vector shape check is `Err.shapeError`, and
  the spec's partial-trace errors are `Err.dimensionMismatch` and
  `Err.invalidSubsystem`.
* The eigendecomposition (`Matrix.diagonalize`) is supplied by the external
  algebra engine; the embedding passes it in as a function
  `diag : Mat K → Mat K × Mat K` returning the pair `(P, D)` with `P` the
  matrix of eigenvectors (as columns) and `D` the diagonal matrix, which is
  sympy's documented return order.
-/

attribute [local semireducible] Rat.add Rat.mul Rat.inv Rat.sub

/-- Errors raised by the embedded operations (Python exceptions and the
spec's error taxonomy). -/
inductive Err where
  | shapeError
  | invalidEnsemble
  | degenerate
  | indexError
  | attributeError
  | dimensionMismatch
  | invalidSubsystem
deriving DecidableEq

instance {ε α : Type} [DecidableEq ε] [DecidableEq α] :
    DecidableEq (Except ε α) := fun a b =>
  match a, b with
  | .error e, .error f => decidable_of_iff (e = f) (by simp)
  | .ok x, .ok y => decidable_of_iff (x = y) (by simp)
  | .error _, .ok _ => isFalse (by simp)
  | .ok _, .error _ => isFalse (by simp)

/-- A dynamically shaped dense matrix: sympy's `Matrix`, with entries stored
as a flat row-major list. -/
structure Mat (K : Type) where
  rows : Nat
  cols : Nat
  data : List K
deriving DecidableEq

/-- Build an `r × c` matrix from an entry function (row-major data, as sympy
stores it). -/
def Mat.of {K : Type} (r c : Nat) (f : Nat → Nat → K) : Mat K :=
  ⟨r, c, (List.range (r * c)).map fun n => f (n / c) (n % c)⟩

/-- Entry access `M[i, j]` (row-major); out-of-range access defaults to `0`,
which faithful uses never rely on. -/
def Mat.get {K : Type} [Zero K] (M : Mat K) (i j : Nat) : K :=
  M.data.getD (i * M.cols + j) 0

/-- `Matrix.zeros(r, c)`. -/
def Mat.zeros {K : Type} [Zero K] (r c : Nat) : Mat K :=
  Mat.of r c fun _ _ => 0

/-- The identity matrix `eye(n)`. -/
def Mat.identity {K : Type} [Zero K] [One K] [DecidableEq Nat] (n : Nat) : Mat K :=
  Mat.of n n fun i j => if i = j then 1 else 0

/-- Conjugate transpose: `M.conjugate().T` in the source. -/
def conjT {K : Type} [Zero K] [Star K] (M : Mat K) : Mat K :=
  Mat.of M.cols M.rows fun i j => star (M.get j i)

/-- Matrix product `A * B` (entries `Σ_k A[i,k] B[k,j]`). -/
def matMul {K : Type} [AddCommMonoid K] [Mul K] (A B : Mat K) : Mat K :=
  Mat.of A.rows B.cols fun i j => ∑ k ∈ Finset.range A.cols, A.get i k * B.get k j

/-- Entrywise matrix sum `A + B`. -/
def matAdd {K : Type} [Zero K] [Add K] (A B : Mat K) : Mat K :=
  Mat.of A.rows A.cols fun i j => A.get i j + B.get i j

/-- Scalar multiple `s * M`. -/
def matScalarMul {K : Type} [Zero K] [Mul K] (s : K) (M : Mat K) : Mat K :=
  Mat.of M.rows M.cols fun i j => s * M.get i j

/-- Entrywise scalar division `M / s`. -/
def matScalarDiv {K : Type} [Zero K] [Div K] (M : Mat K) (s : K) : Mat K :=
  Mat.of M.rows M.cols fun i j => M.get i j / s

/-- `M.trace()`: the sum of the diagonal entries. -/
def Mat.trace {K : Type} [AddCommMonoid K] (M : Mat K) : K :=
  ∑ i ∈ Finset.range M.rows, M.get i i

/-- A quantum pure state: wraps the sympy column vector `self.vec`
(`states.py`, class `PureState`). -/
structure PureState (K : Type) where
  vec : Mat K
deriving DecidableEq

/-- The checked constructor `PureState.__init__`: requires a column vector
(`amplitudes.cols != 1` raises `ValueError`, the spec's `ShapeError`);
`simplify` is the identity on canonical exact scalars. -/
def pureState? {K : Type} (amplitudes : Mat K) : Except Err (PureState K) :=
  if amplitudes.cols ≠ 1 then .error .shapeError else .ok ⟨amplitudes⟩

/-- `PureState.inner`: `⟨ψ|φ⟩` computed as the 1×1 matrix
`self.vec.conjugate().T * other.vec` (the source returns the matrix, not the
scalar). -/
def PureState.inner {K : Type} [AddCommMonoid K] [Mul K] [Star K]
    (ψ φ : PureState K) : Mat K :=
  matMul (conjT ψ.vec) φ.vec

/-- A mixed state: owns the list of `(probability, PureState)` pairs
(`states.py`, class `MixedState`). -/
structure MixedState (K : Type) where
  ensemble : List (K × PureState K)
deriving DecidableEq

/-- `sum(p for p, _ in ensemble)`: Python's `sum` folds from `0` on the
left. -/
def pTotal {K : Type} [Zero K] [Add K] (ensemble : List (K × PureState K)) : K :=
  ensemble.foldl (fun acc x => acc + x.1) 0

/-- The checked constructor `MixedState.__init__` (`states.py` lines 69-76):
raises `ValueError` (the spec's `InvalidEnsembleError`) when
`simplify(total - 1) != 0`, i.e. when the residual is not structurally the
scalar `0`. -/
def mixedState? {K : Type} [Zero K] [One K] [Add K] [Sub K] [DecidableEq K]
    (ensemble : List (K × PureState K)) : Except Err (MixedState K) :=
  if pTotal ensemble - 1 ≠ 0 then .error .invalidEnsemble else .ok ⟨ensemble⟩

/-- The loop body of `MixedState.density_matrix` (`states.py` lines 82-85):
starting from `Matrix.zeros(d)`, add `p * (ψ.vec * ψ.vec.conjugate().T)` for
each ensemble member. -/
def densityBody {K : Type} [AddCommMonoid K] [Mul K] [Star K]
    (ensemble : List (K × PureState K)) (d : Nat) : Mat K :=
  ensemble.foldl
    (fun ρ x => matAdd ρ (matScalarMul x.1 (matMul x.2.vec (conjT x.2.vec))))
    (Mat.zeros d d)

/-- `MixedState.density_matrix` (`states.py` lines 78-85): the dimension is
read off `self.ensemble[0]`, which raises `IndexError` on an empty ensemble;
`simplify` is the identity on canonical exact scalars. -/
def MixedState.density_matrix {K : Type} [AddCommMonoid K] [Mul K] [Star K]
    (ms : MixedState K) : Except Err (Mat K) :=
  match ms.ensemble with
  | [] => .error .indexError
  | x :: _ => .ok (densityBody ms.ensemble x.2.vec.rows)

/-- The reconstruction loop of `MixedState.measure` (`states.py` lines
102-107), embedded faithfully with its bug.  The source does
`evals, evecs = ρ_post.diagonalize()`, but sympy's `diagonalize` returns the
pair `(P, D)` with `P` the eigenvector matrix, so `evals` is bound to `P`
and `evecs` to the diagonal matrix `D`; `zip(evals, evecs)` then pairs the
flat row-major *entries* of `P` with those of `D`.  At the first pair whose
first component is non-zero the loop evaluates
`evec.col_insert(0, Matrix([]))` where `evec` is a scalar sympy expression,
which has no `col_insert` attribute: Python raises `AttributeError`.  If
every entry of `P` is zero the loop finishes with `new_ensemble == []`. -/
def reconstruct {K : Type} [Zero K] [DecidableEq K] (pr : Mat K × Mat K) :
    Except Err (List (K × PureState K)) :=
  if (pr.1.data.zip pr.2.data).any (fun q => decide (q.1 ≠ 0)) then
    .error .attributeError
  else
    .ok []

/-- The outcome probabilities of `MixedState.measure` (`states.py` line 94):
`p_i = simplify((proj * ρ).trace())` in input order. -/
def measureProbs {K : Type} [AddCommMonoid K] [Mul K] (ρ : Mat K)
    (projectors : List (Mat K)) : List K :=
  projectors.map fun proj => (matMul proj ρ).trace

/-- The selection loop of `MixedState.measure` (`states.py` lines 97-109):
walk the probabilities in input order with the running index `i`; at the
first `p != 0` compute `ρ' = Π ρ Π`, normalize it by its trace, run the
reconstruction on the engine's `diagonalize` output, build the new
`MixedState`, and return `(i, post_state)`; if the loop finishes, raise
`RuntimeError` (the spec's `DegenerateMeasurementError`). -/
def measureGo {K : Type} [Field K] [StarRing K] [DecidableEq K]
    (diag : Mat K → Mat K × Mat K) (ρ : Mat K) :
    List (Mat K) → List K → Nat → Except Err (Nat × MixedState K)
  | proj :: ps, p :: rest, i =>
    if p ≠ 0 then
      match reconstruct
          (diag (matScalarDiv (matMul (matMul proj ρ) proj)
            (matMul (matMul proj ρ) proj).trace)) with
      | .error e => .error e
      | .ok ens =>
        match mixedState? ens with
        | .error e => .error e
        | .ok st => .ok (i, st)
    else measureGo diag ρ ps rest (i + 1)
  | _, _, _ => .error .degenerate

/-- `MixedState.measure` (`states.py` lines 87-109): compute the density
matrix, the outcome probabilities, and run the selection loop.  The external
engine's `diagonalize` is passed in as `diag`. -/
def MixedState.measure {K : Type} [Field K] [StarRing K] [DecidableEq K]
    (diag : Mat K → Mat K × Mat K) (ms : MixedState K)
    (projectors : List (Mat K)) : Except Err (Nat × MixedState K) :=
  match ms.density_matrix with
  | .error e => .error e
  | .ok ρ => measureGo diag ρ projectors (measureProbs ρ projectors) 0

/-- The index selected by the loop of `MixedState.measure`: the first `i`
with `probs[i] != 0`. -/
def firstNonzeroIdx {K : Type} [Zero K] [DecidableEq K] (probs : List K) :
    Option Nat :=
  probs.findIdx? fun p => decide (p ≠ 0)

/-- The `(i, j)` entry contributed by one ensemble member to the density
matrix: `p * (v v†)[i, j]`. -/
def contrib {K : Type} [AddCommMonoid K] [Mul K] [Star K]
    (x : K × PureState K) (i j : Nat) : K :=
  x.1 * ∑ k ∈ Finset.range x.2.vec.cols, x.2.vec.get i k * star (x.2.vec.get j k)

/-! ## Partial trace (modelled from the spec)

`MixedState.partial_trace` (`states.py` lines 111-120) delegates to
`utils.partial_trace_ensemble`, whose source is not in the repository; the
definitions in this section are therefore modelled from the spec (§4.4) and
the embedding of the delegating method is built on top of them.  The method
name is rendered `pTrace` here. -/

/-- Modelled from the spec: mixed-radix decomposition of a flat basis index
into per-subsystem digits (most significant subsystem first, matching the
Kronecker-product ordering of composite kets). -/
def mrDigits : List Nat → Nat → List Nat
  | [], _ => []
  | _ :: rest, n => n / rest.prod :: mrDigits rest (n % rest.prod)

/-- Modelled from the spec: recomposition of per-subsystem digits into a
flat basis index. -/
def mrFlat : List Nat → List Nat → Nat
  | [], _ => 0
  | _ :: rest, ds => ds.headD 0 * rest.prod + mrFlat rest ds.tail

/-- Modelled from the spec: interleave the digits of the kept subsystems
(`kd`) and of the traced-out subsystems (`td`) back into a full digit list,
walking the subsystem positions in order (`keep` is taken ascending). -/
def mrMerge : List Nat → List Nat → List Nat → List Nat → List Nat
  | [], _, _, _ => []
  | pos :: ps, keep, kd, td =>
    if pos ∈ keep then kd.headD 0 :: mrMerge ps keep kd.tail td
    else td.headD 0 :: mrMerge ps keep kd td.tail

/-- The dimensions of the kept subsystems, in `keep` order. -/
def keepDims (dims keep : List Nat) : List Nat :=
  keep.map fun j => dims.getD j 1

/-- The dimensions of the traced-out subsystems, in position order. -/
def trDims (dims keep : List Nat) : List Nat :=
  ((List.range dims.length).filter fun j => decide (j ∉ keep)).map fun j =>
    dims.getD j 1

/-- Modelled from the spec: the standard partial-trace contraction.  Entry
`(a, b)` of the reduced operator accumulates `M[(a,t), (b,t)]` over all
values `t` of the traced-out coordinates, with flat indices formed by the
mixed-radix decomposition implied by `dims`. -/
def reducedEntry {K : Type} [AddCommMonoid K] (M : Mat K)
    (dims keep : List Nat) (a b : Nat) : K :=
  ∑ t ∈ Finset.range (trDims dims keep).prod,
    M.get
      (mrFlat dims (mrMerge (List.range dims.length) keep
        (mrDigits (keepDims dims keep) a) (mrDigits (trDims dims keep) t)))
      (mrFlat dims (mrMerge (List.range dims.length) keep
        (mrDigits (keepDims dims keep) b) (mrDigits (trDims dims keep) t)))

/-- Modelled from the spec: the contraction of one density operator to the
kept subsystems. -/
def contractMat {K : Type} [AddCommMonoid K] (M : Mat K)
    (dims keep : List Nat) : Mat K :=
  Mat.of (keepDims dims keep).prod (keepDims dims keep).prod
    (reducedEntry M dims keep)

/-- Modelled from the spec: the reduced density operator of an ensemble,
computed per ensemble member on `p · ψψ†` and re-combined by summation. -/
def reducedOf {K : Type} [NonUnitalNonAssocSemiring K] [Star K]
    (ens : List (K × PureState K)) (dims keep : List Nat) : Mat K :=
  ens.foldl
    (fun acc x =>
      matAdd acc
        (matScalarMul x.1
          (contractMat (matMul x.2.vec (conjT x.2.vec)) dims keep)))
    (Mat.zeros (keepDims dims keep).prod (keepDims dims keep).prod)

/-- Modelled from the spec (§4.3 step 5, §6): re-express a reduced density
operator as an ensemble from the engine's eigendecomposition `(P, D)`: for
every non-zero eigenvalue `D[k, k]` emit `(eigenvalue, PureState(column k of
P))`; zero eigenvalues are dropped. -/
def specReconstruct {K : Type} [Zero K] [DecidableEq K] (pr : Mat K × Mat K) :
    List (K × PureState K) :=
  (List.range pr.2.rows).filterMap fun k =>
    if pr.2.get k k ≠ 0 then
      some (pr.2.get k k, ⟨Mat.of pr.1.rows 1 fun i _ => pr.1.get i k⟩)
    else none

/-- The dimension of the state an ensemble lives on (the row count of its
first ket; `0` for the empty ensemble, which constructed states never
have). -/
def ensembleDim {K : Type} (e : List (K × PureState K)) : Nat :=
  (e.head?.map fun x => x.2.vec.rows).getD 0

/-- Modelled from the spec: `utils.partial_trace_ensemble`.  Validation
first — `DimensionMismatchError` if `∏ dims ≠ d`, then
`InvalidSubsystemError` if `keep` is empty or contains an out-of-range
subsystem index — then contraction and eigendecomposition-based
re-expression as an ensemble. -/
def pTraceEnsemble {K : Type} [NonUnitalNonAssocSemiring K] [Star K]
    [DecidableEq K] (diag : Mat K → Mat K × Mat K)
    (ens : List (K × PureState K)) (dims keep : List Nat) :
    Except Err (List (K × PureState K)) :=
  if dims.prod ≠ ensembleDim ens then .error .dimensionMismatch
  else if keep = [] ∨ ∃ j ∈ keep, dims.length ≤ j then .error .invalidSubsystem
  else .ok (specReconstruct (diag (reducedOf ens dims keep)))

/-- The dimension of a mixed state (row count of its first ket). -/
def stateDim {K : Type} (ms : MixedState K) : Nat := ensembleDim ms.ensemble

/-- `MixedState.partial_trace` (`states.py` lines 111-120, rendered
`pTrace`): delegate to the (spec-modelled) ensemble reduction, then rebuild
a `MixedState` through the checked constructor. -/
def MixedState.pTrace {K : Type} [NonUnitalNonAssocSemiring K] [Star K]
    [One K] [Sub K] [DecidableEq K] (diag : Mat K → Mat K × Mat K)
    (ms : MixedState K) (dims keep : List Nat) : Except Err (MixedState K) :=
  match pTraceEnsemble diag ms.ensemble dims keep with
  | .error e => .error e
  | .ok ne => mixedState? ne

/-- A model of the engine's `diagonalize` on matrices that are already
diagonal: `P` is the identity and `D` the matrix itself. -/
def diagId {K : Type} [Zero K] [One K] (M : Mat K) : Mat K × Mat K :=
  (Mat.identity M.rows, M)

/-! ## Scalar types

`Q2` is the computable real quadratic field ℚ(√2) — the exact scalar
subfield sympy works in for the Bell-state computation (`sqrt(2)/2` is the
element `⟨0, 1/2⟩`, and complex conjugation is the identity on this real
field).  `LinExpr` models sympy expressions that are rational linear
combinations of free symbols, the fragment on which the ensemble-sum check
of `MixedState.__init__` meets *undecided* residuals. -/

/-- `a + b·√2` with rational `a`, `b`. -/
structure Q2 where
  ra : Rat
  rb : Rat
deriving DecidableEq

def Q2.add (x y : Q2) : Q2 := ⟨x.ra + y.ra, x.rb + y.rb⟩

def Q2.mul (x y : Q2) : Q2 :=
  ⟨x.ra * y.ra + 2 * x.rb * y.rb, x.ra * y.rb + x.rb * y.ra⟩

def Q2.neg (x : Q2) : Q2 := ⟨-x.ra, -x.rb⟩

instance : Zero Q2 := ⟨⟨0, 0⟩⟩

instance : One Q2 := ⟨⟨1, 0⟩⟩

instance : Add Q2 := ⟨Q2.add⟩

instance : Mul Q2 := ⟨Q2.mul⟩

instance : Neg Q2 := ⟨Q2.neg⟩

instance : CommRing Q2 where
  nsmul := nsmulRec
  zsmul := zsmulRec
  add_assoc a b c := by
    show Q2.add (Q2.add a b) c = Q2.add a (Q2.add b c)
    cases a; cases b; cases c
    simp only [Q2.add, Q2.mk.injEq]
    constructor <;> ring
  zero_add a := by
    show Q2.add ⟨0, 0⟩ a = a
    cases a
    simp [Q2.add]
  add_zero a := by
    show Q2.add a ⟨0, 0⟩ = a
    cases a
    simp [Q2.add]
  add_comm a b := by
    show Q2.add a b = Q2.add b a
    cases a; cases b
    simp only [Q2.add, Q2.mk.injEq]
    constructor <;> ring
  neg_add_cancel a := by
    show Q2.add (Q2.neg a) a = ⟨0, 0⟩
    cases a
    simp [Q2.add, Q2.neg]
  mul_assoc a b c := by
    show Q2.mul (Q2.mul a b) c = Q2.mul a (Q2.mul b c)
    cases a; cases b; cases c
    simp only [Q2.mul, Q2.mk.injEq]
    constructor <;> ring
  one_mul a := by
    show Q2.mul ⟨1, 0⟩ a = a
    cases a
    simp [Q2.mul]
  mul_one a := by
    show Q2.mul a ⟨1, 0⟩ = a
    cases a
    simp [Q2.mul]
  left_distrib a b c := by
    show Q2.mul a (Q2.add b c) = Q2.add (Q2.mul a b) (Q2.mul a c)
    cases a; cases b; cases c
    simp only [Q2.mul, Q2.add, Q2.mk.injEq]
    constructor <;> ring
  right_distrib a b c := by
    show Q2.mul (Q2.add a b) c = Q2.add (Q2.mul a c) (Q2.mul b c)
    cases a; cases b; cases c
    simp only [Q2.mul, Q2.add, Q2.mk.injEq]
    constructor <;> ring
  zero_mul a := by
    show Q2.mul ⟨0, 0⟩ a = ⟨0, 0⟩
    cases a
    simp [Q2.mul]
  mul_zero a := by
    show Q2.mul a ⟨0, 0⟩ = ⟨0, 0⟩
    cases a
    simp [Q2.mul]
  mul_comm a b := by
    show Q2.mul a b = Q2.mul b a
    cases a; cases b
    simp only [Q2.mul, Q2.mk.injEq]
    constructor <;> ring

instance : StarRing Q2 := starRingOfComm

/-- `sqrt(2)/2 = 1/sqrt(2)` as an element of ℚ(√2). -/
def rt2inv : Q2 := ⟨0, 1/2⟩

/-- A sympy expression `c + Σ_k q_k·x_k` over free symbols `x_k`, in `Add`
normal form: the trailing-zero-free list of symbol coefficients together
with the rational constant term.  sympy's `+`, unary `-` and `simplify`
preserve this normal form, and its structural `!= 0` is inequality with
`⟨0, []⟩`. -/
structure LinExpr where
  const : Rat
  coeffs : List Rat
deriving DecidableEq

/-- Drop trailing zero coefficients (sympy never stores a term `0·x_k`). -/
def trimZeros (l : List Rat) : List Rat :=
  (l.reverse.dropWhile fun q => decide (q = 0)).reverse

def addCoeffs : List Rat → List Rat → List Rat
  | [], ys => ys
  | xs, [] => xs
  | x :: xs, y :: ys => (x + y) :: addCoeffs xs ys

instance : Zero LinExpr := ⟨⟨0, []⟩⟩

instance : One LinExpr := ⟨⟨1, []⟩⟩

instance : Add LinExpr :=
  ⟨fun a b => ⟨a.const + b.const, trimZeros (addCoeffs a.coeffs b.coeffs)⟩⟩

instance : Neg LinExpr := ⟨fun a => ⟨-a.const, a.coeffs.map Neg.neg⟩⟩

instance : Sub LinExpr := ⟨fun a b => a + -b⟩

/-- The spec's notion of a residual that is *provably non-zero*: after
simplification it is a symbol-free constant different from `0`.  (This
definition follows the spec's words; the source's own test is structural
inequality with `0`.) -/
def definitelyNonZero (x : LinExpr) : Prop := x.coeffs = [] ∧ x.const ≠ 0

/-- The free symbol `x_0` as a scalar. -/
def symX : LinExpr := ⟨0, [1]⟩

instance (x : LinExpr) : Decidable (definitelyNonZero x) := by
  unfold definitelyNonZero
  infer_instance

/-! ## Concrete inputs used by the claim theorems -/

/-- The ket `|0⟩` in dimension 2. -/
def ket0 : Mat Rat := Mat.of 2 1 fun i _ => if i = 0 then 1 else 0

/-- The mixed state with ensemble `[(1, |0⟩)]`. -/
def ket0MS : MixedState Rat := ⟨[(1, ⟨ket0⟩)]⟩

/-- The projector `|0⟩⟨0|`. -/
def proj00 : Mat Rat := Mat.of 2 2 fun i j => if i = 0 ∧ j = 0 then 1 else 0

/-- The projector `|1⟩⟨1|`. -/
def proj11 : Mat Rat := Mat.of 2 2 fun i j => if i = 1 ∧ j = 1 then 1 else 0

/-- The density matrix `|0⟩⟨0|` of `ket0MS`. -/
def rho0 : Mat Rat := Mat.of 2 2 fun i j => if i = 0 ∧ j = 0 then 1 else 0

/-- sympy's `diagonalize` output on the post-measurement matrix `|0⟩⟨0|`:
eigenvalues `0, 1` with eigenvector matrix `P = [[0, 1], [1, 0]]` and
`D = diag(0, 1)`, returned in sympy's `(P, D)` order.  (Any eigenvalue
ordering gives `P` a non-zero entry, which is all the theorems below
need.) -/
def diagEx : Mat Rat → Mat Rat × Mat Rat := fun _ =>
  (Mat.of 2 2 fun i j => if (i = 0 ∧ j = 1) ∨ (i = 1 ∧ j = 0) then 1 else 0,
   Mat.of 2 2 fun i j => if i = 1 ∧ j = 1 then 1 else 0)

/-- The unnormalized ket `2·|0⟩`. -/
def ket20 : Mat Rat := Mat.of 2 1 fun i _ => if i = 0 then 2 else 0

/-- The density matrix of `[(1, 2·|0⟩)]`: `diag(4, 0)`. -/
def rho20 : Mat Rat := Mat.of 2 2 fun i j => if i = 0 ∧ j = 0 then 4 else 0

/-- The unnormalized four-dimensional ket `2·|00⟩`. -/
def ket4big : Mat Rat := Mat.of 4 1 fun i _ => if i = 0 then 2 else 0

/-- The Bell ket `|Φ+⟩ = (|00⟩ + |11⟩)/√2` over ℚ(√2): amplitudes
`√2/2` at `|00⟩` and `|11⟩`. -/
def bellKet : Mat Q2 := Mat.of 4 1 fun i _ => if i = 0 ∨ i = 3 then rt2inv else 0

/-- The Bell state as a one-element ensemble. -/
def bellMS : MixedState Q2 := ⟨[(1, ⟨bellKet⟩)]⟩

/-- `1/2` in ℚ(√2). -/
def halfQ2 : Q2 := ⟨1/2, 0⟩

/-- `|0⟩` over ℚ(√2), dimension 2. -/
def e0Q2 : Mat Q2 := Mat.of 2 1 fun i _ => if i = 0 then 1 else 0

/-- `|1⟩` over ℚ(√2), dimension 2. -/
def e1Q2 : Mat Q2 := Mat.of 2 1 fun i _ => if i = 1 then 1 else 0

/-- The reduced state the spec expects for the Bell input: ensemble
`[(1/2, |0⟩), (1/2, |1⟩)]`. -/
def bellReduced : MixedState Q2 := ⟨[(halfQ2, ⟨e0Q2⟩), (halfQ2, ⟨e1Q2⟩)]⟩

/-- `I/2`, the maximally mixed single-qubit density matrix, over ℚ(√2). -/
def halfIQ2 : Mat Q2 := Mat.of 2 2 fun i j => if i = j then halfQ2 else 0

/-- The imaginary unit of the Gaussian integers `ℤ[i]` (`Zsqrtd (-1)`),
whose `star` is complex conjugation. -/
def iG : Zsqrtd (-1) := ⟨0, 1⟩

/-- `|0⟩` over `ℤ[i]`. -/
def e0G : Mat (Zsqrtd (-1)) := Mat.of 2 1 fun i _ => if i = 0 then 1 else 0

/-- `|1⟩` over `ℤ[i]`. -/
def e1G : Mat (Zsqrtd (-1)) := Mat.of 2 1 fun i _ => if i = 1 then 1 else 0

/-- An ensemble with non-real "probabilities" `i` and `1 - i`: they sum to
`1`, so the constructor accepts it. -/
def ceEns : List (Zsqrtd (-1) × PureState (Zsqrtd (-1))) :=
  [(iG, ⟨e0G⟩), (1 - iG, ⟨e1G⟩)]

/-- The density matrix of `ceEns`: `diag(i, 1 - i)`, which is not
Hermitian. -/
def ceRho : Mat (Zsqrtd (-1)) := Mat.of 2 2 fun i j =>
  if i = 0 ∧ j = 0 then iG else if i = 1 ∧ j = 1 then 1 - iG else 0

/-- A one-dimensional placeholder pure state over `LinExpr` (the kets play
no role in the constructor check). -/
def dummyP : PureState LinExpr := ⟨Mat.of 1 1 fun _ _ => 1⟩

/-- The probability `0.5` as an expression (exact for the residual test). -/
def pHalf : LinExpr := ⟨1/2, []⟩

/-- The probability `0.4` as an expression.  (Python's float `0.4` is a
dyadic rational near `2/5`; for the residual test only `0.5 + 0.4 - 1 ≠ 0`
matters, which holds for the dyadic value just as for `2/5`.) -/
def pTwoFifths : LinExpr := ⟨2/5, []⟩

/-- The ket `(1, 1)ᵀ` over ℚ: the failing input of the normalization
round-trip claim. -/
def ket11 : Mat Rat := Mat.of 2 1 fun _ _ => 1

theorem Mat.rows_of {K : Type} (r c : Nat) (f : Nat → Nat → K) :
    (Mat.of r c f).rows = r := rfl

theorem Mat.cols_of {K : Type} (r c : Nat) (f : Nat → Nat → K) :
    (Mat.of r c f).cols = c := rfl

theorem Mat.get_of {K : Type} [Zero K] (r c : Nat) (f : Nat → Nat → K)
    {i j : Nat} (hi : i < r) (hj : j < c) :
    (Mat.of r c f).get i j = f i j := by
  have hc : 0 < c := Nat.pos_of_ne_zero (by omega)
  have hlt : i * c + j < r * c := by
    calc i * c + j < i * c + c := by omega
    _ = (i + 1) * c := by ring
    _ ≤ r * c := Nat.mul_le_mul_right c hi
  unfold Mat.of Mat.get
  simp only [List.getD_eq_getElem?_getD, List.getElem?_map, List.getElem?_range hlt]
  have hdiv : (i * c + j) / c = i := by
    rw [Nat.add_comm, Nat.add_mul_div_right _ _ hc, Nat.div_eq_of_lt hj, Nat.zero_add]
  have hmod : (i * c + j) % c = j := by
    rw [Nat.add_comm, Nat.add_mul_mod_self_right, Nat.mod_eq_of_lt hj]
  simp [hdiv, hmod]

theorem Mat.of_congr {K : Type} {r c : Nat} {f g : Nat → Nat → K}
    (h : ∀ i < r, ∀ j < c, f i j = g i j) :
    Mat.of r c f = Mat.of r c g := by
  unfold Mat.of
  refine congrArg _ (List.map_congr_left ?_)
  intro n hn
  have hn' : n < r * c := List.mem_range.mp hn
  have hc : 0 < c := by
    rcases Nat.eq_zero_or_pos c with h0 | h0
    · rw [h0, Nat.mul_zero] at hn'
      exact absurd hn' (Nat.not_lt_zero n)
    · exact h0
  exact h _ ((Nat.div_lt_iff_lt_mul hc).mpr hn') _ (Nat.mod_lt _ hc)

theorem Mat.trace_of {K : Type} [AddCommMonoid K] (n : Nat) (f : Nat → Nat → K) :
    (Mat.of n n f).trace = ∑ i ∈ Finset.range n, f i i := by
  unfold Mat.trace
  rw [Mat.rows_of]
  exact Finset.sum_congr rfl fun i hi =>
    Mat.get_of n n f (Finset.mem_range.mp hi) (Finset.mem_range.mp hi)

theorem mixedState_ok_iff {K : Type} [Zero K] [One K] [Add K] [Sub K]
    [DecidableEq K] {e : List (K × PureState K)} {ms : MixedState K} :
    mixedState? e = .ok ms ↔ (pTotal e - 1 = 0 ∧ ms = ⟨e⟩) := by
  unfold mixedState?
  split
  · rename_i h
    constructor
    · intro hc
      exact absurd hc (by simp)
    · intro ⟨h0, _⟩
      exact absurd h0 h
  · rename_i h
    rw [not_not] at h
    constructor
    · intro hc
      injection hc with hc
      exact ⟨h, hc.symm⟩
    · intro ⟨_, hms⟩
      rw [hms]

theorem mixedState_error_eq {K : Type} [Zero K] [One K] [Add K] [Sub K]
    [DecidableEq K] {e : List (K × PureState K)} {x : Err}
    (h : mixedState? e = .error x) : x = .invalidEnsemble := by
  unfold mixedState? at h
  split at h
  · injection h with h
    exact h.symm
  · exact absurd h (by simp)

theorem mixedState_nil_error {K : Type} [Field K] [DecidableEq K] :
    mixedState? ([] : List (K × PureState K)) = .error .invalidEnsemble := by
  unfold mixedState? pTotal
  rw [if_pos]
  simp

theorem pTotal_eq_sum {K : Type} [AddCommMonoid K]
    (e : List (K × PureState K)) : pTotal e = (e.map Prod.fst).sum := by
  unfold pTotal
  suffices h : ∀ (l : List (K × PureState K)) (a : K),
      l.foldl (fun acc x => acc + x.1) a = a + (l.map Prod.fst).sum by
    rw [h e 0, zero_add]
  intro l
  induction l with
  | nil => intro a; simp
  | cons x xs ih =>
    intro a
    simp only [List.foldl_cons, List.map_cons, List.sum_cons, ih (a + x.1)]
    rw [add_assoc]

theorem reconstruct_cases {K : Type} [Zero K] [DecidableEq K]
    (pr : Mat K × Mat K) :
    reconstruct pr = .error .attributeError ∨ reconstruct pr = .ok [] := by
  unfold reconstruct
  split
  · exact Or.inl rfl
  · exact Or.inr rfl

/-- The first branch taken by the measurement loop can never return
normally: the reconstruction either raises `AttributeError` or produces the
empty ensemble, on which the `MixedState` constructor raises. -/
theorem measureGo_ne_ok {K : Type} [Field K] [StarRing K] [DecidableEq K]
    (diag : Mat K → Mat K × Mat K) (ρ : Mat K) :
    ∀ (projs : List (Mat K)) (probs : List K) (i : Nat) (z : Nat × MixedState K),
      measureGo diag ρ projs probs i ≠ .ok z := by
  intro projs
  induction projs with
  | nil =>
    intro probs i z
    cases probs <;> simp [measureGo]
  | cons proj ps ih =>
    intro probs i z
    cases probs with
    | nil => simp [measureGo]
    | cons p rest =>
      by_cases hp : p = 0
      · simpa [measureGo, hp] using ih rest (i + 1) z
      · simp only [measureGo, if_pos (by exact hp : p ≠ 0)]
        rcases reconstruct_cases
            (diag (matScalarDiv (matMul (matMul proj ρ) proj)
              (matMul (matMul proj ρ) proj).trace)) with hr | hr
        · rw [hr]
          simp
        · rw [hr]
          simp [mixedState_nil_error]

/-- The measurement loop finishes with `RuntimeError` exactly when every
probability in the list is zero. -/
theorem measureGo_degenerate_iff {K : Type} [Field K] [StarRing K]
    [DecidableEq K] (diag : Mat K → Mat K × Mat K) (ρ : Mat K) (g : Mat K → K) :
    ∀ (projs : List (Mat K)) (i : Nat),
      measureGo diag ρ projs (projs.map g) i = .error .degenerate ↔
        ∀ proj ∈ projs, g proj = 0 := by
  intro projs
  induction projs with
  | nil => intro i; simp [measureGo]
  | cons proj ps ih =>
    intro i
    by_cases hp : g proj = 0
    · simp only [List.map_cons, measureGo, hp]
      rw [if_neg (by simp)]
      simp only [ih (i + 1), List.forall_mem_cons, hp]
      tauto
    · simp only [List.map_cons, measureGo, if_pos (by exact hp : g proj ≠ 0)]
      rcases reconstruct_cases
          (diag (matScalarDiv (matMul (matMul proj ρ) proj)
            (matMul (matMul proj ρ) proj).trace)) with hr | hr
      · rw [hr]
        simp only [List.forall_mem_cons]
        constructor
        · intro hc; exact absurd hc (by simp)
        · intro ⟨h0, _⟩; exact absurd h0 hp
      · rw [hr]
        simp only [mixedState_nil_error, List.forall_mem_cons]
        constructor
        · intro hc; exact absurd hc (by simp)
        · intro ⟨h0, _⟩; exact absurd h0 hp

theorem matScalarMul_get {K : Type} [Zero K] [Mul K] (s : K) (M : Mat K)
    {i j : Nat} (hi : i < M.rows) (hj : j < M.cols) :
    (matScalarMul s M).get i j = s * M.get i j := by
  unfold matScalarMul
  exact Mat.get_of _ _ _ hi hj

theorem outer_get {K : Type} [NonUnitalNonAssocSemiring K] [Star K] (v : Mat K)
    {i j : Nat} (hi : i < v.rows) (hj : j < v.rows) :
    (matMul v (conjT v)).get i j
      = ∑ k ∈ Finset.range v.cols, v.get i k * star (v.get j k) := by
  unfold matMul
  rw [Mat.get_of _ _ _ hi (by exact hj : j < (conjT v).cols)]
  refine Finset.sum_congr rfl fun k hk => ?_
  congr 1
  unfold conjT
  exact Mat.get_of _ _ _ (Finset.mem_range.mp hk) hj

theorem densityStep_eq {K : Type} [NonUnitalNonAssocSemiring K] [Star K]
    (d : Nat) (f : Nat → Nat → K) (x : K × PureState K)
    (hx : x.2.vec.rows = d) :
    matAdd (Mat.of d d f) (matScalarMul x.1 (matMul x.2.vec (conjT x.2.vec)))
      = Mat.of d d fun i j => f i j + contrib x i j := by
  unfold matAdd
  apply Mat.of_congr
  intro i hi j hj
  congr 1
  · exact Mat.get_of _ _ _ hi hj
  · have hi' : i < x.2.vec.rows := hx ▸ hi
    have hj' : j < x.2.vec.rows := hx ▸ hj
    rw [matScalarMul_get _ _ (by exact hi' : i < (matMul x.2.vec (conjT x.2.vec)).rows)
      (by exact hj' : j < (matMul x.2.vec (conjT x.2.vec)).cols)]
    rw [outer_get _ hi' hj']
    rfl

theorem densityFold_eq {K : Type} [NonUnitalNonAssocSemiring K] [Star K] (d : Nat) :
    ∀ (e : List (K × PureState K)) (f : Nat → Nat → K),
      (∀ x ∈ e, x.2.vec.rows = d) →
      e.foldl
          (fun ρ x => matAdd ρ (matScalarMul x.1 (matMul x.2.vec (conjT x.2.vec))))
          (Mat.of d d f)
        = Mat.of d d fun i j => f i j + (e.map fun x => contrib x i j).sum := by
  intro e
  induction e with
  | nil =>
    intro f _
    simp only [List.foldl_nil, List.map_nil, List.sum_nil]
    exact Mat.of_congr fun i _ j _ => (add_zero _).symm
  | cons x xs ih =>
    intro f hd
    simp only [List.foldl_cons]
    rw [densityStep_eq d f x (hd x (by simp))]
    rw [ih _ fun y hy => hd y (by simp [hy])]
    refine Mat.of_congr fun i _ j _ => ?_
    simp only [List.map_cons, List.sum_cons]
    rw [add_assoc]

/-- The density matrix of a mixed state whose kets all have dimension `d`,
as a closed entry formula. -/
theorem density_matrix_eq {K : Type} [NonUnitalNonAssocSemiring K] [Star K]
    {ms : MixedState K} {e : List (K × PureState K)} (d : Nat)
    (hms : ms.ensemble = e) (hne : e ≠ [])
    (hd : ∀ x ∈ e, x.2.vec.rows = d) :
    ms.density_matrix
      = .ok (Mat.of d d fun i j => (e.map fun x => contrib x i j).sum) := by
  unfold MixedState.density_matrix
  rw [hms]
  cases e with
  | nil => exact absurd rfl hne
  | cons x xs =>
    simp only
    have hx : x.2.vec.rows = d := hd x (by simp)
    unfold densityBody
    rw [hx]
    rw [show (Mat.zeros d d : Mat K) = Mat.of d d (fun _ _ => (0 : K)) from rfl]
    rw [densityFold_eq d (x :: xs) _ hd]
    congr 1
    exact Mat.of_congr fun i _ j _ => by rw [zero_add]

theorem sum_range_listsum {K A : Type} [AddCommMonoid K] (n : Nat) :
    ∀ (l : List A) (g : A → Nat → K),
      ∑ i ∈ Finset.range n, (l.map fun x => g x i).sum
        = (l.map fun x => ∑ i ∈ Finset.range n, g x i).sum := by
  intro l g
  induction l with
  | nil => simp
  | cons x xs ih => simp [Finset.sum_add_distrib, ih]

theorem inner_self_entry {K : Type} [NonUnitalNonAssocSemiring K] [Star K]
    (ψ : PureState K) (h1 : 0 < ψ.vec.cols) :
    (ψ.inner ψ).get 0 0
      = ∑ k ∈ Finset.range ψ.vec.rows, star (ψ.vec.get k 0) * ψ.vec.get k 0 := by
  unfold PureState.inner matMul
  rw [Mat.get_of _ _ _ (by exact h1 : 0 < (conjT ψ.vec).rows)
    (by exact h1 : 0 < ψ.vec.cols)]
  rw [show (conjT ψ.vec).cols = ψ.vec.rows from rfl]
  refine Finset.sum_congr rfl fun k hk => ?_
  congr 1
  unfold conjT
  exact Mat.get_of _ _ _ h1 (Finset.mem_range.mp hk)
/-- C1 (code bug): the claim says `measure` reconstructs the returned
ensemble by eigendecomposing the normalized post-measurement matrix and
emitting `(eigenvalue, PureState(eigenvector))` for every non-zero
eigenvalue.  The source cannot do this for any input: `evals, evecs =
ρ_post.diagonalize()` binds `evals` to the eigenvector matrix `P` (sympy
returns `(P, D)`), `zip(evals, evecs)` pairs scalar *entries* of `P` with
scalar entries of `D`, and `evec.col_insert(0, Matrix([]))` is then called
on a scalar, raising `AttributeError`; if instead every entry of `P` is
zero, the empty reconstructed ensemble fails the `MixedState` constructor.
Hence `measure` never returns a value, for any engine decomposition; on
`ρ = |0⟩⟨0|` measured against `{|0⟩⟨0|}` with the engine's actual
decomposition of `|0⟩⟨0|` it raises `AttributeError`. -/
theorem c1_measure_never_reconstructs :
    (∀ (K : Type) [Field K] [StarRing K] [DecidableEq K]
        (diag : Mat K → Mat K × Mat K) (ms : MixedState K)
        (projs : List (Mat K)) (z : Nat × MixedState K),
        ms.measure diag projs ≠ .ok z)
    ∧ ket0MS.measure diagEx [proj00] = .error .attributeError := by
  constructor
  · intro K _ _ _ diag ms projs z
    unfold MixedState.measure
    cases h : ms.density_matrix with
    | error e => simp
    | ok ρ => exact measureGo_ne_ok diag ρ projs _ 0 z
  · decide

/-- C3 (code bug): the probabilities are computed as `Tr(Π_i ρ)` in input
order and the loop deterministically selects the first index with a
non-zero one (here index `1`), but the pair `(selected_index, MixedState)`
is never returned: the reconstruction of the selected branch raises
`AttributeError` (the reconstruction bug described for C1). -/
theorem c3_selection_first_nonzero_but_crash :
    ket0MS.density_matrix = .ok rho0
    ∧ measureProbs rho0 [proj11, proj00]
        = [(matMul proj11 rho0).trace, (matMul proj00 rho0).trace]
    ∧ measureProbs rho0 [proj11, proj00] = [0, 1]
    ∧ firstNonzeroIdx (measureProbs rho0 [proj11, proj00]) = some 1
    ∧ ket0MS.measure diagEx [proj11, proj00] = .error .attributeError := by
  refine ⟨by decide, rfl, by decide, by decide, by decide⟩

/-- C4 (confirmed): `measure` fails with the degenerate-measurement error
exactly when every computed probability `Tr(Π_i ρ)` is zero (when some
probability is non-zero the run fails differently or would return), and
measuring `|0⟩` against the single projector `|1⟩⟨1|` fails this way. -/
theorem c4_degenerate_iff_all_probs_zero :
    (∀ (K : Type) [Field K] [StarRing K] [DecidableEq K]
        (diag : Mat K → Mat K × Mat K) (ms : MixedState K)
        (projs : List (Mat K)) (ρ : Mat K),
        ms.density_matrix = .ok ρ →
        (∀ proj ∈ projs, proj.rows = ρ.rows ∧ proj.cols = ρ.cols) →
        (ms.measure diag projs = .error .degenerate ↔
          ∀ p ∈ measureProbs ρ projs, p = 0))
    ∧ ket0MS.measure diagEx [proj11] = .error .degenerate := by
  constructor
  · intro K _ _ _ diag ms projs ρ hρ _
    unfold MixedState.measure
    rw [hρ]
    show measureGo diag ρ projs (measureProbs ρ projs) 0
        = Except.error Err.degenerate ↔ _
    rw [show measureProbs ρ projs
        = projs.map (fun proj => (matMul proj ρ).trace) from rfl]
    rw [measureGo_degenerate_iff diag ρ (fun proj => (matMul proj ρ).trace) projs 0]
    constructor
    · intro h p hp
      obtain ⟨proj, hproj, rfl⟩ := List.mem_map.mp hp
      exact h proj hproj
    · intro h proj hproj
      exact h _ (List.mem_map.mpr ⟨proj, hproj, rfl⟩)
  · decide

/-- C4 witness. -/
theorem c4_witness :
    ket0MS.measure diagEx [proj11] = .error .degenerate ↔
      ∀ p ∈ measureProbs rho0 [proj11], p = 0 :=
  c4_degenerate_iff_all_probs_zero.1 Rat diagEx ket0MS [proj11] rho0
    (by decide) (by decide)

/-- C2 counterexample: an ensemble whose single probability is the free
symbol `x_0`.  The residual `x_0 - 1` does not simplify to a definite
non-zero constant (it is not provably non-zero), yet construction fails —
refuting the claim that such residuals are treated as zero and construction
succeeds. -/
theorem c2_counterexample :
    mixedState? [(symX, dummyP)] = .error .invalidEnsemble
    ∧ ¬ definitelyNonZero (pTotal [(symX, dummyP)] - 1) := by
  refine ⟨by decide, by decide⟩

/-- C2 (corrected): construction fails exactly when the residual
`total - 1` does not simplify to the scalar `0` — also for symbolic
residuals that are not provably non-zero; probabilities `[0.5, 0.4]` fail
and `[0.5, 0.5]` succeed. -/
theorem c2_fails_iff_residual_nonzero :
    (∀ (e : List (LinExpr × PureState LinExpr)),
        mixedState? e = .error .invalidEnsemble ↔ pTotal e - 1 ≠ 0)
    ∧ mixedState? [(pHalf, dummyP), (pTwoFifths, dummyP)]
        = .error .invalidEnsemble
    ∧ mixedState? [(pHalf, dummyP), (pHalf, dummyP)]
        = .ok ⟨[(pHalf, dummyP), (pHalf, dummyP)]⟩ := by
  refine ⟨?_, by decide, by decide⟩
  intro e
  unfold mixedState?
  split
  · rename_i h
    simpa using h
  · rename_i h
    rw [not_not] at h
    simp [h]

/-- C10 (confirmed): an empty ensemble has probability sum `0`, whose
residual `-1` is non-zero, so construction fails; hence every constructed
`MixedState` has a non-empty ensemble and `density_matrix`'s access to
`self.ensemble[0]` succeeds on it. -/
theorem c10_constructed_nonempty_density_total :
    ∀ (K : Type) [Field K] [StarRing K] [DecidableEq K]
      (e : List (K × PureState K)) (ms : MixedState K),
      mixedState? e = .ok ms →
      ms.ensemble ≠ [] ∧ ∃ ρ, ms.density_matrix = .ok ρ := by
  intro K _ _ _ e ms hok
  obtain ⟨hsum, hms⟩ := mixedState_ok_iff.mp hok
  subst hms
  cases e with
  | nil =>
    exfalso
    rw [show pTotal ([] : List (K × PureState K)) = 0 from rfl] at hsum
    rw [zero_sub, neg_eq_zero] at hsum
    exact one_ne_zero hsum
  | cons x xs =>
    refine ⟨by simp, ?_⟩
    exact ⟨densityBody (x :: xs) x.2.vec.rows, rfl⟩

/-- C10 witness. -/
theorem c10_witness :
    ket0MS.ensemble ≠ [] ∧ ∃ ρ, ket0MS.density_matrix = .ok ρ :=
  c10_constructed_nonempty_density_total Rat [(1, ⟨ket0⟩)] ket0MS (by decide)


theorem star_list_sum {K A : Type} [AddCommMonoid K] [StarAddMonoid K]
    (l : List A) (f : A → K) :
    star ((l.map f).sum) = (l.map fun x => star (f x)).sum := by
  induction l with
  | nil => simp
  | cons x xs ih => simp [star_add, ih]

/-- C7 counterexample: the ensemble `[(1, 2·|0⟩)]` is validly constructed
(its probabilities sum to `1`), yet the trace of its density matrix is `4`,
not `1` — the constructor never requires kets to be normalized. -/
theorem c7_counterexample :
    mixedState? [((1 : Rat), ⟨ket20⟩)] = .ok ⟨[(1, ⟨ket20⟩)]⟩
    ∧ (⟨[((1 : Rat), ⟨ket20⟩)]⟩ : MixedState Rat).density_matrix = .ok rho20
    ∧ rho20.trace ≠ 1 := by
  refine ⟨by decide, by decide, by decide⟩

/-- C7 (corrected): for every validly constructed `MixedState` whose kets
are genuine column vectors of a common dimension with unit self-inner
product, the trace of the density matrix is exactly `1`. -/
theorem c7_trace_one_of_unit_kets :
    ∀ (K : Type) [Field K] [StarRing K] [DecidableEq K]
      (e : List (K × PureState K)) (ms : MixedState K) (d : Nat),
      mixedState? e = .ok ms →
      (∀ x ∈ e, x.2.vec.rows = d ∧ x.2.vec.cols = 1) →
      (∀ x ∈ e, (x.2.inner x.2).get 0 0 = 1) →
      ∃ ρ, ms.density_matrix = .ok ρ ∧ ρ.trace = 1 := by
  intro K _ _ _ e ms d hok hdim hunit
  obtain ⟨hsum, hms⟩ := mixedState_ok_iff.mp hok
  have hne : e ≠ [] := by
    intro h
    subst h
    rw [show pTotal ([] : List (K × PureState K)) = 0 from rfl, zero_sub,
      neg_eq_zero] at hsum
    exact one_ne_zero hsum
  subst hms
  have hrows : ∀ x ∈ e, x.2.vec.rows = d := fun x hx => (hdim x hx).1
  refine ⟨_, @density_matrix_eq K _ _ ⟨e⟩ e d rfl hne hrows, ?_⟩
  rw [Mat.trace_of, sum_range_listsum]
  have hmem : ∀ x ∈ e, (∑ i ∈ Finset.range d, contrib x i i) = x.1 := by
    intro x hx
    have hc1 : x.2.vec.cols = 1 := (hdim x hx).2
    have hr : x.2.vec.rows = d := (hdim x hx).1
    have h1 : ∀ i, contrib x i i
        = x.1 * (x.2.vec.get i 0 * star (x.2.vec.get i 0)) := by
      intro i
      unfold contrib
      rw [hc1, Finset.sum_range_one]
    calc ∑ i ∈ Finset.range d, contrib x i i
        = ∑ i ∈ Finset.range d,
            x.1 * (x.2.vec.get i 0 * star (x.2.vec.get i 0)) :=
          Finset.sum_congr rfl fun i _ => h1 i
      _ = x.1 * ∑ i ∈ Finset.range d,
            x.2.vec.get i 0 * star (x.2.vec.get i 0) := by
          rw [Finset.mul_sum]
      _ = x.1 * ∑ i ∈ Finset.range d,
            star (x.2.vec.get i 0) * x.2.vec.get i 0 := by
          congr 1
          exact Finset.sum_congr rfl fun i _ => mul_comm _ _
      _ = x.1 * (x.2.inner x.2).get 0 0 := by
          rw [inner_self_entry x.2 (by rw [hc1]; exact Nat.one_pos), hr]
      _ = x.1 * 1 := by rw [hunit x hx]
      _ = x.1 := mul_one _
  rw [List.map_congr_left hmem, ← pTotal_eq_sum]
  exact sub_eq_zero.mp hsum

/-- C7 witness. -/
theorem c7_witness :
    ∃ ρ, ket0MS.density_matrix = .ok ρ ∧ ρ.trace = 1 :=
  c7_trace_one_of_unit_kets Rat [(1, ⟨ket0⟩)] ket0MS 2 (by decide) (by decide)
    (by decide)

/-- C8 counterexample: the constructor only checks that the probabilities
sum to `1`, so the non-real Gaussian-integer "probabilities" `i` and
`1 - i` are accepted; the resulting density matrix `diag(i, 1 - i)` is not
equal to its conjugate transpose. -/
theorem c8_counterexample :
    mixedState? ceEns = .ok ⟨ceEns⟩
    ∧ (⟨ceEns⟩ : MixedState (Zsqrtd (-1))).density_matrix = .ok ceRho
    ∧ conjT ceRho ≠ ceRho := by
  refine ⟨by decide, by decide, by decide⟩

/-- C8 (corrected): for ensembles of a common ket dimension whose
probabilities are self-conjugate (real) scalars, the computed density
matrix equals its own conjugate transpose. -/
theorem c8_hermitian_of_selfadjoint_probs :
    ∀ (K : Type) [CommRing K] [StarRing K] [DecidableEq K]
      (e : List (K × PureState K)) (ms : MixedState K) (d : Nat) (ρ : Mat K),
      mixedState? e = .ok ms →
      (∀ x ∈ e, x.2.vec.rows = d) →
      (∀ x ∈ e, star x.1 = x.1) →
      ms.density_matrix = .ok ρ →
      conjT ρ = ρ := by
  intro K _ _ _ e ms d ρ hok hdim hreal hρ
  obtain ⟨hsum, hms⟩ := mixedState_ok_iff.mp hok
  subst hms
  have hne : e ≠ [] := by
    intro h
    subst h
    exact absurd hρ (by simp [MixedState.density_matrix])
  have heq := @density_matrix_eq K _ _ ⟨e⟩ e d rfl hne hdim
  rw [hρ] at heq
  injection heq with heq
  subst heq
  have hstar : ∀ i j,
      star ((e.map fun x => contrib x j i).sum)
        = (e.map fun x => contrib x i j).sum := by
    intro i j
    rw [star_list_sum]
    refine congrArg List.sum (List.map_congr_left ?_)
    intro x hx
    unfold contrib
    rw [star_mul, hreal x hx, mul_comm]
    congr 1
    rw [star_sum]
    refine Finset.sum_congr rfl fun k _ => ?_
    rw [star_mul, star_star]
  unfold conjT
  refine Mat.of_congr fun i hi j hj => ?_
  have hi' : i < d := hi
  have hj' : j < d := hj
  rw [Mat.get_of d d _ hj' hi']
  exact hstar i j

/-- C8 witness. -/
theorem c8_witness : conjT rho0 = rho0 :=
  c8_hermitian_of_selfadjoint_probs Rat [(1, ⟨ket0⟩)] ket0MS 2 rho0
    (by decide) (by decide) (by decide) (by decide)

/-- C6 (confirmed, spec-modelled): the partial trace fails with
`DimensionMismatchError` exactly when `∏ dims` differs from the state's
dimension, and with `InvalidSubsystemError` exactly when the dimensions
match and `keep` is empty or contains an out-of-range subsystem index. -/
theorem c6_ptrace_error_conditions :
    ∀ (K : Type) [CommRing K] [StarRing K] [DecidableEq K]
      (diag : Mat K → Mat K × Mat K) (ms : MixedState K)
      (dims keep : List Nat),
      (ms.pTrace diag dims keep = .error .dimensionMismatch ↔
        dims.prod ≠ stateDim ms)
      ∧ (ms.pTrace diag dims keep = .error .invalidSubsystem ↔
          (dims.prod = stateDim ms
            ∧ (keep = [] ∨ ∃ j ∈ keep, dims.length ≤ j))) := by
  intro K _ _ _ diag ms dims keep
  unfold MixedState.pTrace pTraceEnsemble stateDim
  by_cases h1 : dims.prod ≠ ensembleDim ms.ensemble
  · rw [if_pos h1]
    simp [h1]
  · rw [if_neg h1]
    rw [not_not] at h1
    by_cases h2 : keep = [] ∨ ∃ j ∈ keep, dims.length ≤ j
    · rw [if_pos h2]
      simp [h1, h2]
    · rw [if_neg h2]
      have hcl : ∀ x, mixedState?
          (specReconstruct (diag (reducedOf ms.ensemble dims keep)))
            = Except.error x → x = Err.invalidEnsemble :=
        fun x hx => mixedState_error_eq hx
      constructor
      · constructor
        · intro hc
          have hc' : mixedState?
              (specReconstruct (diag (reducedOf ms.ensemble dims keep)))
                = Except.error Err.dimensionMismatch := hc
          exact absurd (hcl _ hc') (by simp)
        · intro hc
          exact absurd h1 hc
      · constructor
        · intro hc
          have hc' : mixedState?
              (specReconstruct (diag (reducedOf ms.ensemble dims keep)))
                = Except.error Err.invalidSubsystem := hc
          exact absurd (hcl _ hc') (by simp)
        · intro hc
          exact absurd hc.2 h2

/-- C5 counterexample: the four-dimensional ensemble `[(1, 2·|00⟩)]` is
validly constructed, but its `[2,2]`-`keep [0]` reduction has trace `4`,
and the partial trace does not return a trace-1 MixedState of dimension 2
(the reconstructed ensemble is rejected by the constructor), refuting the
general "density-matrix trace 1" part of the claim. -/
theorem c5_counterexample :
    mixedState? [((1 : Rat), ⟨ket4big⟩)] = .ok ⟨[(1, ⟨ket4big⟩)]⟩
    ∧ (reducedOf [((1 : Rat), ⟨ket4big⟩)] [2, 2] [0]).trace = 4
    ∧ (⟨[((1 : Rat), ⟨ket4big⟩)]⟩ : MixedState Rat).pTrace diagId [2, 2] [0]
        = .error .invalidEnsemble := by
  refine ⟨by decide, by decide, by decide⟩

/-- C5 (corrected, spec-modelled): for the Bell ensemble, the partial trace
over the second qubit returns the mixed state with ensemble
`[(1/2, |0⟩), (1/2, |1⟩)]`, whose density matrix is `I/2`, of dimension `2`
and trace `1`; in general for `dims = [2, 2]`, `keep = [0]` the contraction
of a `4×4` operator is a `2×2` matrix whose trace equals the trace of the
original operator (hence `1` exactly for trace-1 inputs such as the Bell
state, not for every valid ensemble). -/
theorem c5_bell_partial_trace :
    (bellMS.pTrace diagId [2, 2] [0] = .ok bellReduced
      ∧ bellReduced.density_matrix = .ok halfIQ2
      ∧ halfIQ2.trace = 1
      ∧ stateDim bellReduced = 2
      ∧ mixedState? bellMS.ensemble = .ok bellMS)
    ∧ (∀ (ρ : Mat Q2), ρ.rows = 4 →
        (contractMat ρ [2, 2] [0]).rows = 2
        ∧ (contractMat ρ [2, 2] [0]).cols = 2
        ∧ (contractMat ρ [2, 2] [0]).trace = ρ.trace) := by
  constructor
  · refine ⟨by decide, by decide, by decide, by decide, by decide⟩
  · intro ρ h4
    refine ⟨rfl, rfl, ?_⟩
    have i00 : mrFlat [2, 2] (mrMerge (List.range [2, 2].length) [0]
        (mrDigits (keepDims [2, 2] [0]) 0) (mrDigits (trDims [2, 2] [0]) 0))
          = 0 := rfl
    have i01 : mrFlat [2, 2] (mrMerge (List.range [2, 2].length) [0]
        (mrDigits (keepDims [2, 2] [0]) 0) (mrDigits (trDims [2, 2] [0]) 1))
          = 1 := rfl
    have i10 : mrFlat [2, 2] (mrMerge (List.range [2, 2].length) [0]
        (mrDigits (keepDims [2, 2] [0]) 1) (mrDigits (trDims [2, 2] [0]) 0))
          = 2 := rfl
    have i11 : mrFlat [2, 2] (mrMerge (List.range [2, 2].length) [0]
        (mrDigits (keepDims [2, 2] [0]) 1) (mrDigits (trDims [2, 2] [0]) 1))
          = 3 := rfl
    have e0 : reducedEntry ρ [2, 2] [0] 0 0 = ρ.get 0 0 + ρ.get 1 1 := by
      unfold reducedEntry
      rw [show (trDims [2, 2] [0]).prod = 2 from rfl]
      rw [Finset.sum_range_succ, Finset.sum_range_succ, Finset.sum_range_zero,
        zero_add, i00, i01]
    have e1 : reducedEntry ρ [2, 2] [0] 1 1 = ρ.get 2 2 + ρ.get 3 3 := by
      unfold reducedEntry
      rw [show (trDims [2, 2] [0]).prod = 2 from rfl]
      rw [Finset.sum_range_succ, Finset.sum_range_succ, Finset.sum_range_zero,
        zero_add, i10, i11]
    have hl : (contractMat ρ [2, 2] [0]).trace
        = reducedEntry ρ [2, 2] [0] 0 0 + reducedEntry ρ [2, 2] [0] 1 1 := by
      rw [show contractMat ρ [2, 2] [0]
          = Mat.of 2 2 (reducedEntry ρ [2, 2] [0]) from rfl]
      rw [Mat.trace_of]
      rw [Finset.sum_range_succ, Finset.sum_range_succ, Finset.sum_range_zero,
        zero_add]
    have hr : ρ.trace = ρ.get 0 0 + ρ.get 1 1 + ρ.get 2 2 + ρ.get 3 3 := by
      unfold Mat.trace
      rw [h4]
      rw [Finset.sum_range_succ, Finset.sum_range_succ, Finset.sum_range_succ,
        Finset.sum_range_succ, Finset.sum_range_zero, zero_add]
    rw [hl, e0, e1, hr]
    ring

/-- C5 witness. -/
theorem c5_witness :
    (contractMat (Mat.zeros 4 4 : Mat Q2) [2, 2] [0]).rows = 2
    ∧ (contractMat (Mat.zeros 4 4 : Mat Q2) [2, 2] [0]).cols = 2
    ∧ (contractMat (Mat.zeros 4 4 : Mat Q2) [2, 2] [0]).trace
        = (Mat.zeros 4 4 : Mat Q2).trace :=
  c5_bell_partial_trace.2 (Mat.zeros 4 4) rfl

/-- C9 (code bug): on the failing ket `(1, 1)ᵀ` the squared norm computed
by `inner` is exactly `2`, and `2` has no exact rational square root; the
`norm**0.5` in `normalize` (a Python float exponent `0.5`) therefore cannot
stay in the exact fragment — sympy evaluates it to the 53-bit float
`1.4142135623730951` — and the round-tripped self-inner product is a float
near but not equal to `1`, contradicting the claimed exact `1`. -/
theorem c9_failing_norm_has_no_exact_root :
    ((⟨ket11⟩ : PureState Rat).inner ⟨ket11⟩).get 0 0 = 2
    ∧ ¬ ∃ q : Rat, q * q = 2 := by
  constructor
  · decide
  · rintro ⟨q, hq⟩
    have h2 : (q : Real) * (q : Real) = 2 := by
      exact_mod_cast congrArg (fun r : Rat => (r : Real)) hq
    have habs : |(q : Real)| * |(q : Real)| = 2 := by
      rw [abs_mul_abs_self]
      exact h2
    have hs : Real.sqrt 2 = |(q : Real)| := by
      rw [show (2 : Real) = |(q : Real)| ^ 2 by rw [sq]; exact habs.symm]
      exact Real.sqrt_sq (abs_nonneg _)
    exact irrational_sqrt_two ⟨|q|, by rw [Rat.cast_abs, ← hs]⟩
